import Mathlib

/-!
# AVID-FP distributed object store: shallow embedding and verification

This file embeds, in Lean 4, the core data model and operations of an
AVID-FP (Asynchronous Verifiable Information Dispersal with Fingerprinting)
object store written in Go, and proves properties of the embedded code.

Embedded components:
* `pkg/fingerprint/fingerprint.go` — the seeded polynomial hash `Eval`.
* `pkg/erasure/erasure.go` — the Reed–Solomon wrapper `New` / `Encode` /
  `Decode` (the wrapped `klauspost/reedsolomon` library is not part of the
  repository sources; its `Split`/`Join`/`Reconstruct`/`New` surface is
  modelled from the specification's §4.2 contract).
* `cmd/server/main.go` — the per-object node state machine: the `Disperse`,
  `Echo`, `Ready` and `Retrieve` RPC handlers, `eqFPCC`, `persistFragment`,
  and the `newServer` restart path.

Conventions: Go `byte` values are `Nat`s < 256, byte slices are `List Nat`,
`uint64` arithmetic is `Nat` arithmetic reduced modulo `2^64` at each
operation, Go maps keyed by strings are association lists (first match wins,
as `newServer`'s rebuild and all handlers only ever update the first
binding), and Go `map[string]bool` sets are duplicate-free `List String`.
A Go slice index access without a bounds check is embedded through
`List.get?`, with an explicit constructor marking the out-of-range panic.
SHA-256 is kept abstract: the node configuration carries the digest
function as an opaque `List Nat → List Nat`.
-/

/-- `2^64`, the modulus of Go `uint64` arithmetic. -/
def U64 : Nat := 2 ^ 64

namespace Fingerprint

/-- `fingerprint.Eval`: Horner-rule polynomial hash
`res = res*r + b` over `uint64`, from `pkg/fingerprint/fingerprint.go`. -/
def Eval (r : Nat) (data : List Nat) : Nat :=
  data.foldl (fun res b => (res * r + b) % U64) 0

end Fingerprint

/-- Sanity check mirroring `TestEvalDeterministic`:
`Eval` of `[1,2,3,4,5]` at seed 31 is `986115`. -/
example : Fingerprint.Eval 31 [1, 2, 3, 4, 5] = 986115 := by decide

/-- `protocol.FPCC`: the fingerprinted cross-checksum — evaluation seed,
per-fragment SHA-256 digests, per-fragment fingerprints. -/
structure FPCC where
  seed : Nat
  hashes : List (List Nat)
  fps : List Nat
deriving DecidableEq, Repr

/-- The index loop of `eqFPCC` (`cmd/server/main.go`): compares `Hashes[i]`
and `Fps[i]` for each `i` in range of `a.Hashes`. A `none` result marks the
Go panic when `Fps` is shorter than `Hashes` (index out of range). -/
def eqFPCCloop (a b : FPCC) : List Nat → Option Bool
  | [] => some true
  | i :: rest =>
    match a.hashes.get? i, b.hashes.get? i, a.fps.get? i, b.fps.get? i with
    | some ha, some hb, some fa, some fb =>
      if ha ≠ hb ∨ fa ≠ fb then some false else eqFPCCloop a b rest
    | _, _, _, _ => none

/-- `eqFPCC` (`cmd/server/main.go`): seed and length checks, then the
element loop over the indices of `a.Hashes`. -/
def eqFPCC (a b : FPCC) : Option Bool :=
  if a.seed ≠ b.seed ∨ a.hashes.length ≠ b.hashes.length ∨
      a.fps.length ≠ b.fps.length then
    some false
  else
    eqFPCCloop a b (List.range a.hashes.length)

/-- `FPCC.verify(i, bytes)` from the specification §4.3, as performed inline
by the Disperse handler and by the retrieving client:
`SHA-256(bytes) = hashes[i]` and `Eval(bytes, seed) = fps[i]`. -/
def FPCC.verify (sha : List Nat → List Nat) (c : FPCC) (i : Nat)
    (bytes : List Nat) : Bool :=
  match c.hashes.get? i, c.fps.get? i with
  | some h, some fp => sha bytes == h && Fingerprint.Eval c.seed bytes == fp
  | _, _ => false

/-! ## Erasure codec (`pkg/erasure/erasure.go`) -/

/-- Error kinds surfaced by the erasure wrapper. -/
inductive ErasureErr where
  | invalidParameters
  | newFailed
  | reconstructFailed
  | shortData
deriving DecidableEq, Repr

/-- `erasure.Encoder`: shard parameters (`data` data shards, `total`
shards overall). The wrapped library handle is kept abstract. -/
structure Encoder where
  data : Nat
  total : Nat
deriving DecidableEq, Repr

/-- Modelled from the spec: `reedsolomon.New(dataShards, parityShards)`
of the missing `klauspost/reedsolomon` library; §4.2 has the combined
constructor fail when there are no parity shards (`n − m = 0`, "no fault
tolerance") or no data shards. -/
def rsNew (dataShards parityShards : Int) : Except ErasureErr Unit :=
  if dataShards ≤ 0 ∨ parityShards ≤ 0 then .error .newFailed else .ok ()

/-- `erasure.New`: rejects `data ≤ 0 ∨ total < data` itself, then defers
to the library constructor with `total - data` parity shards. -/
def New (data total : Int) : Except ErasureErr Encoder :=
  if data ≤ 0 ∨ total < data then
    .error .invalidParameters
  else
    match rsNew data (total - data) with
    | .error e => .error e
    | .ok _ => .ok ⟨data.toNat, total.toNat⟩

/-- First `k` chunks of length `len` of a list (the shard rows of the
library's `Split`). -/
def chunksOf (len : Nat) (xs : List Nat) : Nat → List (List Nat)
  | 0 => []
  | k + 1 => xs.take len :: chunksOf len (xs.drop len) k

/-- Modelled from the spec: `Split` of the missing `klauspost/reedsolomon`
library. §4.2: "splits `blob` into `m` equal-length data fragments
(right-zero-padded as needed)"; the library also appends `n − m`
equally-sized zero shards for `Encode` to fill in. -/
def rsSplit (m n : Nat) (input : List Nat) : List (List Nat) :=
  let len := (input.length + m - 1) / m
  let padded := input ++ List.replicate (len * m - input.length) 0
  chunksOf len padded m ++ List.replicate (n - m) (List.replicate len 0)

/-- Modelled from the spec: `Join` of the missing `klauspost/reedsolomon`
library. §4.2: "concatenates the first `m` trimmed to `original_len`";
the library errors when fewer than `outSize` bytes are available. -/
def rsJoin (shards : List (List Nat)) (m outSize : Nat) :
    Except ErasureErr (List Nat) :=
  let joined := (shards.take m).flatten
  if outSize ≤ joined.length then .ok (joined.take outSize)
  else .error .shortData

/-- `Encoder.Encode`: `Split` the input, have the library `Encode` fill the
parity shards in place, and return the shards with the original length.
The in-place parity computation of the missing library is passed in as the
function `rsEnc`. -/
def Encoder.EncodeWith (rsEnc : List (List Nat) → List (List Nat))
    (e : Encoder) (input : List Nat) : List (List Nat) × Nat :=
  (rsEnc (rsSplit e.data e.total input), input.length)

/-- `Encoder.Decode`: length check, library `Reconstruct` of the missing
(`none`) entries, then `Join` of the first `data` shards trimmed to
`outSize`. The reconstruction of the missing library is passed in as the
function `rsRec`. -/
def Encoder.DecodeWith
    (rsRec : List (Option (List Nat)) → Except ErasureErr (List (List Nat)))
    (e : Encoder) (shards : List (Option (List Nat))) (outSize : Nat) :
    Except ErasureErr (List Nat) :=
  if shards.length ≠ e.total then .error .invalidParameters
  else
    match rsRec shards with
    | .error e => .error e
    | .ok full => rsJoin full e.data outSize

/-! ## Node state machine (`cmd/server/main.go`) -/

/-- Insert into a Go `map[string]bool` used as a set: a no-op when the
element is already present. -/
def insertStr (l : List String) (x : String) : List String :=
  if l.contains x then l else x :: l

/-- Update the per-object peer set `m[obj][p] = true` in an association
list, creating the object's entry when absent. -/
def addSeen : List (String × List String) → String → String →
    List (String × List String)
  | [], obj, p => [(obj, [p])]
  | (o, ps) :: rest, obj, p =>
    if o = obj then (o, insertStr ps p) :: rest
    else (o, ps) :: addSeen rest obj p

/-- Read a per-object peer set; a missing object reads as the empty set
(Go's zero value for a missing map key). -/
def getSeen (m : List (String × List String)) (obj : String) : List String :=
  match m.find? (fun e => e.1 == obj) with
  | some e => e.2
  | none => []

/-- Association-list lookup for Go `map[string]V` reads. -/
def lookupA {α : Type} (m : List (String × α)) (obj : String) : Option α :=
  match m.find? (fun e => e.1 == obj) with
  | some e => some e.2
  | none => none

/-- Association-list overwrite for a bolt bucket `Put`. -/
def putA {α : Type} : List (String × α) → String → α → List (String × α)
  | [], obj, v => [(obj, v)]
  | (o, w) :: rest, obj, v =>
    if o = obj then (o, v) :: rest else (o, w) :: putA rest obj v

/-- The durable KV (`bolt` buckets used by the core): `fpccs`,
`echoSeen`, `readySeen`, `meta`. Evidence-bucket keys are the raw
`"object|peer"` strings written by the batchers. -/
structure DB where
  fpccsBucket : List (String × FPCC)
  echoKeys : List String
  readyKeys : List String
  metaBucket : List (String × Nat)
deriving Repr

/-- An asynchronous broadcast spawned by a handler (`broadcastEcho` /
`broadcastReady`). -/
inductive Broadcast where
  | echo (obj : String) (fpcc : FPCC)
  | ready (obj : String) (fpcc : FPCC)
deriving DecidableEq, Repr

/-- The mutable state of `server`: the in-memory per-object maps, the
fragment files on disk, the durable KV, and the log of spawned
broadcasts. `commitChans` is the domain of Go's `commitChan` map;
`committed` is the set of objects whose commit channel has been closed. -/
structure ServerState where
  fpccs : List (String × FPCC)
  echoSeen : List (String × List String)
  readySeen : List (String × List String)
  readySent : List String
  commitChans : List String
  committed : List String
  fragments : List ((String × Nat) × List Nat)
  db : DB
  broadcasts : List Broadcast
deriving Repr

/-- Static node configuration: self identity, shard parameters, and the
abstract SHA-256 digest function. -/
structure Config where
  self : String
  m : Nat
  n : Nat
  sha : List Nat → List Nat

/-- `f = n − m`, as computed by `main` and stored in `server.f`. -/
def Config.f (c : Config) : Nat := c.n - c.m

/-- A `protocol.DisperseRequest`. -/
structure DisperseRequest where
  objectId : String
  fragmentIndex : Nat
  fragment : List Nat
  fpcc : FPCC
deriving Repr

/-- Outcome of the Disperse handler before its final wait on the commit
channel: either a rejection (`Ok=false` with the given error string in the
Go code), a Go panic (`eqPanic` from `eqFPCC` indexing `Fps` past its end,
`idxPanic` from the handler indexing `Hashes`/`Fps` past their end), or
acceptance (the handler proceeds to wait for the commit signal). -/
inductive DisperseReply where
  | fpccMismatch
  | eqPanic
  | idxPanic
  | hashMismatch
  | fpMismatch
  | accepted
deriving DecidableEq, Repr

/-- `server.persistFragment`: a no-op when a fragment file for
`(obj, idx)` already exists, otherwise an atomic write. -/
def persistFragment (frags : List ((String × Nat) × List Nat))
    (obj : String) (idx : Nat) (data : List Nat) :
    List ((String × Nat) × List Nat) :=
  match frags.find? (fun e => e.1 == (obj, idx)) with
  | some _ => frags
  | none => ((obj, idx), data) :: frags

/-- The `fpccs`-bucket update inside Disperse: `Put` only when the key is
absent ("re-pin never overwrites"). -/
def putFpccIfAbsent (b : List (String × FPCC)) (obj : String) (c : FPCC) :
    List (String × FPCC) :=
  match lookupA b obj with
  | some _ => b
  | none => putA b obj c

/-- The section of `server.Disperse` executed under `s.mu`: create the
per-object state on first contact (commit channel, FPCC pin, self-echo,
`meta` write), or compare the pinned FPCC against the incoming one. -/
def disperseLockPhase (cfg : Config) (s : ServerState)
    (req : DisperseRequest) (now : Nat) : ServerState × DisperseReply :=
  if s.commitChans.contains req.objectId then
    match lookupA s.fpccs req.objectId with
    | some pinned =>
      match eqFPCC pinned req.fpcc with
      | none => (s, DisperseReply.eqPanic)
      | some true => (s, DisperseReply.accepted)
      | some false => (s, DisperseReply.fpccMismatch)
    | none =>
      -- Go dereferences the nil map entry inside eqFPCC and panics;
      -- handlers never produce this state (commitChans ⊆ dom fpccs).
      (s, DisperseReply.eqPanic)
  else
    ({ s with
        commitChans := req.objectId :: s.commitChans,
        fpccs := (req.objectId, req.fpcc) :: s.fpccs,
        echoSeen := addSeen s.echoSeen req.objectId cfg.self,
        db := { s.db with
                  metaBucket := putA s.db.metaBucket req.objectId now } },
      DisperseReply.accepted)

/-- The integrity checks and persistence section of `server.Disperse`:
the two unchecked accesses `req.Fpcc.Hashes[req.FragmentIndex]` and
`req.Fpcc.Fps[req.FragmentIndex]`, fragment persistence, the idempotent
`fpccs`-bucket write, and the asynchronous Echo broadcast. -/
def disperseChecks (cfg : Config) (s1 : ServerState)
    (req : DisperseRequest) : ServerState × DisperseReply :=
  match req.fpcc.hashes.get? req.fragmentIndex with
  | none => (s1, DisperseReply.idxPanic)
  | some h =>
    if cfg.sha req.fragment ≠ h then (s1, DisperseReply.hashMismatch)
    else
      match req.fpcc.fps.get? req.fragmentIndex with
      | none => (s1, DisperseReply.idxPanic)
      | some fp =>
        if Fingerprint.Eval req.fpcc.seed req.fragment ≠ fp then
          (s1, DisperseReply.fpMismatch)
        else
          ({ s1 with
              fragments :=
                persistFragment s1.fragments req.objectId
                  req.fragmentIndex req.fragment,
              db := { s1.db with
                        fpccsBucket :=
                          putFpccIfAbsent s1.db.fpccsBucket req.objectId
                            req.fpcc },
              broadcasts :=
                s1.broadcasts ++ [Broadcast.echo req.objectId req.fpcc] },
            DisperseReply.accepted)

/-- The state mutations and reply of `server.Disperse` up to (but not
including) its wait on the commit channel, from `cmd/server/main.go`:
the lock phase, then — only when it did not reject — the integrity
checks and persistence. -/
def disperseStep (cfg : Config) (s : ServerState) (req : DisperseRequest)
    (now : Nat) : ServerState × DisperseReply :=
  let p := disperseLockPhase cfg s req now
  match p.2 with
  | DisperseReply.accepted => disperseChecks cfg p.1 req
  | v => (p.1, v)

/-- The final `select` of `server.Disperse`: nothing is ever sent on a
commit channel, so the receive succeeds exactly when the channel has been
closed; the handler then replies `Ok=true`, and replies with the timeout
error otherwise. -/
def disperseSelectOk (s : ServerState) (obj : String) : Bool :=
  s.committed.contains obj

/-- `server.Echo`: record the sender, broadcast Ready once at the
`m + f` Echo threshold, and hand the evidence key to the Echo batcher. -/
def echoStep (cfg : Config) (s : ServerState) (peerAddr obj : String)
    (fpcc : FPCC) : ServerState :=
  let s1 := { s with echoSeen := addSeen s.echoSeen obj peerAddr }
  let s2 :=
    if cfg.m + cfg.f ≤ (getSeen s1.echoSeen obj).length ∧
        ¬s1.readySent.contains obj then
      { s1 with
          readySent := obj :: s1.readySent,
          broadcasts := s1.broadcasts ++ [Broadcast.ready obj fpcc] }
    else s1
  { s2 with
      db := { s2.db with echoKeys := s2.db.echoKeys ++ [obj ++ "|" ++ peerAddr] } }

/-- `server.Ready`: record the sender, close the commit channel (if one
exists) at the `2f + 1` Ready threshold, and hand the evidence key to the
Ready batcher. The handler never broadcasts anything. -/
def readyStep (cfg : Config) (s : ServerState) (peerAddr obj : String) :
    ServerState :=
  let s1 := { s with readySeen := addSeen s.readySeen obj peerAddr }
  let s2 :=
    if 2 * cfg.f + 1 ≤ (getSeen s1.readySeen obj).length ∧
        s1.commitChans.contains obj then
      { s1 with committed := insertStr s1.committed obj }
    else s1
  { s2 with
      db := { s2.db with readyKeys := s2.db.readyKeys ++ [obj ++ "|" ++ peerAddr] } }

/-- A `protocol.RetrieveResponse`. The `fpcc` field is an `Option`:
protobuf message fields are nullable and the handler returns whatever the
`fpccs` map holds — `nil` when the object has no pinned FPCC. -/
structure RetrieveResponse where
  ok : Bool
  error : String
  fragment : List Nat
  fpcc : Option FPCC
deriving Repr

/-- `server.Retrieve`: a failed fragment read answers
`Ok=false, "fragment missing"`; otherwise the fragment is returned
together with the (possibly `nil`) pinned FPCC. -/
def retrieveStep (s : ServerState) (obj : String) (idx : Nat) :
    ServerState × RetrieveResponse :=
  match (s.fragments.find? (fun e => e.1 == (obj, idx))).map Prod.snd with
  | none => (s, { ok := false, error := "fragment missing", fragment := [], fpcc := none })
  | some frag => (s, { ok := true, error := "", fragment := frag, fpcc := lookupA s.fpccs obj })

/-- `strings.SplitN(k, "|", 2)`: the part before the first `"|"` and the
remainder; `none` when the separator does not occur (the rebuild loop
skips such keys). -/
def splitN2 (k : String) : Option (String × String) :=
  match k.splitOn "|" with
  | [] => none
  | [_] => none
  | a :: rest => some (a, String.intercalate "|" rest)

/-- The `newServer` rebuild loop for one evidence bucket: fold every
`"object|peer"` key into the per-object peer-set map. -/
def rebuildSeen (keys : List String) : List (String × List String) :=
  keys.foldl
    (fun acc k =>
      match splitN2 k with
      | some (obj, p) => addSeen acc obj p
      | none => acc)
    []

/-- `newServer` (`cmd/server/main.go`): re-open the durable KV and rebuild
the in-memory state. Only the `echoSeen` and `readySeen` buckets are read;
`fpccs`, `readySent`, `commitChan` start as fresh empty maps. Fragment
files on disk (`disk`) survive untouched and are discovered lazily. -/
def newServer (db : DB) (disk : List ((String × Nat) × List Nat)) :
    ServerState :=
  { fpccs := [],
    echoSeen := rebuildSeen db.echoKeys,
    readySeen := rebuildSeen db.readyKeys,
    readySent := [],
    commitChans := [],
    committed := [],
    fragments := disk,
    db := db,
    broadcasts := [] }

/-- A fresh node: `newServer` over a just-created empty database and an
empty data directory. -/
def initState : ServerState :=
  newServer ⟨[], [], [], []⟩ []

/-- One inbound RPC processed by the node: a Disperse arrival, an Echo
from `peerAddr`, or a Ready from `peerAddr`. -/
inductive Event where
  | disperse (req : DisperseRequest) (now : Nat)
  | echo (peerAddr obj : String) (fpcc : FPCC)
  | ready (peerAddr obj : String) (fpcc : FPCC)

/-- Apply one event's handler to the state. -/
def applyEvent (cfg : Config) (s : ServerState) : Event → ServerState
  | Event.disperse req now => (disperseStep cfg s req now).1
  | Event.echo peerAddr obj fpcc => echoStep cfg s peerAddr obj fpcc
  | Event.ready peerAddr obj _ => readyStep cfg s peerAddr obj

/-- Run a sequence of inbound RPCs from a state. -/
def runEvents (cfg : Config) (s : ServerState) (evs : List Event) :
    ServerState :=
  evs.foldl (applyEvent cfg) s

/-! ## Theorems -/

/-- C7: `New(m, n)` fails exactly when `m ≤ 0`, `n < m`, or `n − m = 0`
(no parity shards, no fault tolerance), and succeeds for every other
parameter pair; in particular `New(m, m)` returns an error rather than an
encoder. The first two conditions are rejected by the wrapper itself, the
third by the library constructor receiving zero parity shards. -/
theorem C7_new_parameter_validation (data total : Int) :
    ((∃ enc, New data total = Except.ok enc) ↔
      ¬(data ≤ 0 ∨ total < data ∨ total - data = 0)) ∧
    (New data data = Except.error ErasureErr.invalidParameters ∨
      New data data = Except.error ErasureErr.newFailed) := by
  have hbody : ∀ d t : Int, New d t =
      if d ≤ 0 ∨ t < d then Except.error ErasureErr.invalidParameters
      else if d ≤ 0 ∨ t - d ≤ 0 then Except.error ErasureErr.newFailed
      else Except.ok ⟨d.toNat, t.toNat⟩ := by
    intro d t
    unfold New rsNew
    by_cases h1 : d ≤ 0 ∨ t < d
    · simp [h1]
    · by_cases h2 : d ≤ 0 ∨ t - d ≤ 0
      · have h2' : d ≤ 0 ∨ t ≤ d := by omega
        simp [h1, h2, h2']
      · have h2' : ¬(d ≤ 0 ∨ t ≤ d) := by omega
        simp [h1, h2, h2']
  constructor
  · rw [hbody]
    constructor
    · rintro ⟨enc, henc⟩
      split_ifs at henc with h1 h2
      · omega
    · intro h
      refine ⟨⟨data.toNat, total.toNat⟩, ?_⟩
      split_ifs with h1 h2
      · omega
      · omega
      · rfl
  · rw [hbody]
    split_ifs with h1 h2
    · exact Or.inl rfl
    · exact Or.inr rfl
    · omega

/-- C5 counterexample: the homomorphism claimed for `Eval` under byte-wise
addition modulo 256 fails as soon as a byte-wise carry occurs. At seed 1,
`Eval [200] + Eval [100] = 300` but the byte-wise sum is `[44]` with
`Eval [44] = 44`, and `300 ≢ 44 (mod 2^64)`. -/
theorem C5_counterexample :
    ¬((Fingerprint.Eval 1 [200] + Fingerprint.Eval 1 [100]) % U64 =
      Fingerprint.Eval 1 (List.zipWith (fun u v => (u + v) % 256) [200] [100])) := by
  decide

/-- One Horner step of the amended homomorphism: with no byte-wise carry at
this position, the two accumulators combine modulo `2^64`. -/
theorem eval_step_add (r x y a0 b0 : Nat) (hcarry : a0 + b0 < 256) :
    ((x * r + a0) % U64 + (y * r + b0) % U64) % U64 =
      ((x + y) % U64 * r + (a0 + b0) % 256) % U64 := by
  rw [Nat.mod_eq_of_lt hcarry]
  conv_lhs => rw [← Nat.add_mod]
  rw [Nat.add_mod ((x + y) % U64 * r), Nat.mod_mul_mod, ← Nat.add_mod]
  ring_nf

/-- Horner folds over equal-length carry-free byte lists combine
additively modulo `2^64`, for arbitrary starting accumulators. -/
theorem foldl_eval_add (r : Nat) :
    ∀ (a b : List Nat), a.length = b.length →
      (∀ i, i < a.length → a.getD i 0 + b.getD i 0 < 256) →
      ∀ x y : Nat,
        (a.foldl (fun res v => (res * r + v) % U64) x +
          b.foldl (fun res v => (res * r + v) % U64) y) % U64 =
        (List.zipWith (fun u v => (u + v) % 256) a b).foldl
          (fun res v => (res * r + v) % U64) ((x + y) % U64)
  | [], [], _, _, x, y => rfl
  | [], b0 :: b, hlen, _, x, y => by simp at hlen
  | a0 :: a, [], hlen, _, x, y => by simp at hlen
  | a0 :: a, b0 :: b, hlen, hcarry, x, y => by
    have hlen' : a.length = b.length := by simpa using hlen
    have hcarry0 : a0 + b0 < 256 := by
      have := hcarry 0 (by simp)
      simpa using this
    have hcarry' : ∀ i, i < a.length → a.getD i 0 + b.getD i 0 < 256 := by
      intro i hi
      have := hcarry (i + 1) (by simpa using Nat.succ_lt_succ hi)
      simpa using this
    simp only [List.foldl_cons, List.zipWith_cons_cons]
    rw [foldl_eval_add r a b hlen' hcarry' ((x * r + a0) % U64) ((y * r + b0) % U64),
      eval_step_add r x y a0 b0 hcarry0]

/-- C5 (amended): for every seed `r` and equal-length byte lists `a`, `b`
with no byte-wise carry (`a[i] + b[i] < 256` for every `i`),
`Eval(a, r) + Eval(b, r) ≡ Eval(c, r) (mod 2^64)` where
`c[i] = (a[i] + b[i]) mod 256`. -/
theorem C5_eval_homomorphic_no_carry (r : Nat) (a b : List Nat)
    (hlen : a.length = b.length)
    (hcarry : ∀ i, i < a.length → a.getD i 0 + b.getD i 0 < 256) :
    (Fingerprint.Eval r a + Fingerprint.Eval r b) % U64 =
      Fingerprint.Eval r (List.zipWith (fun u v => (u + v) % 256) a b) := by
  unfold Fingerprint.Eval
  simpa using foldl_eval_add r a b hlen hcarry 0 0

/-- C5 witness: the amended homomorphism at the unit test's vectors
(`TestEvalHomomorphic`): seed 99, `a = [10,20,30]`, `b = [5,15,25]`. -/
theorem C5_witness :
    (Fingerprint.Eval 99 [10, 20, 30] + Fingerprint.Eval 99 [5, 15, 25]) % U64 =
      Fingerprint.Eval 99
        (List.zipWith (fun u v => (u + v) % 256) [10, 20, 30] [5, 15, 25]) :=
  C5_eval_homomorphic_no_carry 99 [10, 20, 30] [5, 15, 25] (by decide)
    (by decide)

/-- C1: the Ready handler never amplifies. For every configuration, state
and Ready RPC — in particular whenever the recorded distinct Ready senders
reach `f + 1` with `readySent` still false — the handler leaves
`readySent` untouched and spawns no broadcast at all; only the Echo
handler at the `m + f` Echo threshold can trigger the node's own Ready
broadcast. -/
theorem C1_ready_handler_never_broadcasts (cfg : Config) (s : ServerState)
    (peerAddr obj : String) :
    (readyStep cfg s peerAddr obj).readySent = s.readySent ∧
    (readyStep cfg s peerAddr obj).broadcasts = s.broadcasts := by
  unfold readyStep
  dsimp only
  split <;> exact ⟨rfl, rfl⟩

/-- C9: `newServer` reads only the `echoSeen` and `readySeen` buckets.
Whatever FPCC the `fpccs` bucket holds for an object, the restarted
server's in-memory `fpccs` map is empty, so the persisted FPCC is not
held after the restart (the bucket itself is carried along unread). -/
theorem C9_restart_loses_pinned_fpccs (db : DB)
    (disk : List ((String × Nat) × List Nat)) (obj : String) (X : FPCC)
    (_hpersisted : lookupA db.fpccsBucket obj = some X) :
    lookupA (newServer db disk).fpccs obj = none ∧
    (newServer db disk).db.fpccsBucket = db.fpccsBucket := ⟨rfl, rfl⟩

/-- C9 witness: a database whose `fpccs` bucket pins seed-7 FPCC for
object `"o"`; after `newServer`, the node holds no FPCC for `"o"`. -/
theorem C9_witness :
    lookupA (newServer ⟨[("o", ⟨7, [], []⟩)], [], [], []⟩ []).fpccs "o" =
      none :=
  (C9_restart_loses_pinned_fpccs ⟨[("o", ⟨7, [], []⟩)], [], [], []⟩ [] "o"
    ⟨7, [], []⟩ (by decide)).1

/-- A node state with a fragment on disk for `("o", 0)` but no pinned
FPCC in memory — the state of any node serving a pre-restart object. -/
def c8state : ServerState :=
  { fpccs := [],
    echoSeen := [],
    readySeen := [],
    readySent := [],
    commitChans := [],
    committed := [],
    fragments := [(("o", 0), [1, 2, 3])],
    db := ⟨[], [], [], []⟩,
    broadcasts := [] }

/-- C8 counterexample: with the fragment present but the pinned FPCC
missing, Retrieve answers `Ok = true` (with a nil FPCC) instead of the
claimed `NotFound`. -/
theorem C8_counterexample :
    (retrieveStep c8state "o" 0).2.ok = true ∧
    lookupA c8state.fpccs "o" = none ∧
    (retrieveStep c8state "o" 0).2.fpcc = none := by
  refine ⟨rfl, rfl, rfl⟩

/-- C8 (amended): Retrieve never modifies any state; it answers
`Ok = false` ("fragment missing") exactly when the fragment is absent,
and otherwise returns the stored fragment together with whatever the
`fpccs` map holds for the object — the pinned FPCC when present, nil
otherwise. -/
theorem C8_retrieve_readonly (s : ServerState) (obj : String) (idx : Nat) :
    (retrieveStep s obj idx).1 = s ∧
    ((retrieveStep s obj idx).2.ok = false ↔
      (s.fragments.find? (fun e => e.1 == (obj, idx))).map Prod.snd = none) ∧
    (∀ frag,
      (s.fragments.find? (fun e => e.1 == (obj, idx))).map Prod.snd =
          some frag →
        (retrieveStep s obj idx).2.fragment = frag ∧
        (retrieveStep s obj idx).2.fpcc = lookupA s.fpccs obj) := by
  unfold retrieveStep
  cases h : (s.fragments.find? (fun e => e.1 == (obj, idx))).map Prod.snd with
  | none => simp
  | some frag => simp

/-- C8 witness: the amended Retrieve behaviour evaluated at `c8state`:
the stored fragment is returned and the state is unchanged. -/
theorem C8_witness :
    (retrieveStep c8state "o" 0).2.fragment = [1, 2, 3] ∧
    (retrieveStep c8state "o" 0).1 = c8state :=
  ⟨((C8_retrieve_readonly c8state "o" 0).2.2 [1, 2, 3] (by decide)).1,
    (C8_retrieve_readonly c8state "o" 0).1⟩

/-- The lock phase of Disperse replies only `accepted`, `fpccMismatch` or
`eqPanic` — never an index panic of its own. -/
theorem disperseLockPhase_snd_cases (cfg : Config) (s : ServerState)
    (req : DisperseRequest) (now : Nat) :
    (disperseLockPhase cfg s req now).2 = DisperseReply.accepted ∨
    (disperseLockPhase cfg s req now).2 = DisperseReply.fpccMismatch ∨
    (disperseLockPhase cfg s req now).2 = DisperseReply.eqPanic := by
  unfold disperseLockPhase
  split
  · rcases hl : lookupA s.fpccs req.objectId with _ | pinned
    · simp [hl]
    · rcases he : eqFPCC pinned req.fpcc with _ | b
      · simp [hl, he]
      · cases b <;> simp [hl, he]
  · simp

/-- C10: the Disperse handler reads `req.Fpcc.Hashes[req.FragmentIndex]`
and `req.Fpcc.Fps[req.FragmentIndex]` without a bounds check; under the
precondition that the fragment index is within both arrays, the
out-of-range branch of the embedded handler is unreachable and the
handler returns a defined reply. -/
theorem C10_disperse_index_accesses_in_range (cfg : Config)
    (s : ServerState) (req : DisperseRequest) (now : Nat)
    (h1 : req.fragmentIndex < req.fpcc.hashes.length)
    (h2 : req.fragmentIndex < req.fpcc.fps.length) :
    (disperseStep cfg s req now).2 ≠ DisperseReply.idxPanic := by
  have hch : ∀ s1, (disperseChecks cfg s1 req).2 ≠ DisperseReply.idxPanic := by
    intro s1
    unfold disperseChecks
    rw [List.get?_eq_get h1, List.get?_eq_get h2]
    dsimp only
    split
    · simp
    · split <;> simp
  unfold disperseStep
  dsimp only
  rcases disperseLockPhase_snd_cases cfg s req now with ha | ha | ha <;>
    rw [ha]
  · exact hch _
  · simp
  · simp

/-- Concrete node configuration used by witnesses: `(m, n) = (3, 5)` and
a digest function that maps every byte list to `[7]`. -/
def cfgW : Config := ⟨"self", 3, 5, fun _ => [7]⟩

/-- Concrete Disperse request used by witnesses: its fragment `[1]`
verifies against its FPCC under `cfgW.sha` (`sha [1] = [7] = hashes[0]`,
`Eval 5 [1] = 1 = fps[0]`). -/
def reqW : DisperseRequest := ⟨"o", 0, [1], ⟨5, [[7]], [1]⟩⟩

/-- C10 witness: the in-range precondition and the absence of the
out-of-range branch, evaluated at `cfgW`, `initState`, `reqW`. -/
theorem C10_witness :
    reqW.fragmentIndex < reqW.fpcc.hashes.length ∧
    reqW.fragmentIndex < reqW.fpcc.fps.length ∧
    (disperseStep cfgW initState reqW 0).2 ≠ DisperseReply.idxPanic :=
  ⟨by decide, by decide,
    C10_disperse_index_accesses_in_range cfgW initState reqW 0 (by decide)
      (by decide)⟩

/-- The lock phase of Disperse never touches the fragment store. -/
theorem disperseLockPhase_fragments (cfg : Config) (s : ServerState)
    (req : DisperseRequest) (now : Nat) :
    (disperseLockPhase cfg s req now).1.fragments = s.fragments := by
  unfold disperseLockPhase
  split
  · rcases hl : lookupA s.fpccs req.objectId with _ | pinned
    · simp [hl]
    · rcases he : eqFPCC pinned req.fpcc with _ | b
      · simp [hl, he]
      · cases b <;> simp [hl, he]
  · simp

/-- Dichotomy of the integrity-check phase: either both checks pass — the
reply is `accepted`, `FPCC.verify` holds, and the fragment store gains (at
most) the verified fragment — or a check fails, the reply is a rejection,
the fragment store is untouched, and `FPCC.verify` is false. -/
theorem disperseChecks_fragments (cfg : Config) (s1 : ServerState)
    (req : DisperseRequest) :
    ((disperseChecks cfg s1 req).2 = DisperseReply.accepted ∧
      FPCC.verify cfg.sha req.fpcc req.fragmentIndex req.fragment = true ∧
      (disperseChecks cfg s1 req).1.fragments =
        persistFragment s1.fragments req.objectId req.fragmentIndex
          req.fragment) ∨
    ((disperseChecks cfg s1 req).2 ≠ DisperseReply.accepted ∧
      (disperseChecks cfg s1 req).1.fragments = s1.fragments ∧
      FPCC.verify cfg.sha req.fpcc req.fragmentIndex req.fragment = false) := by
  unfold disperseChecks FPCC.verify
  rcases hh : req.fpcc.hashes.get? req.fragmentIndex with _ | h
  · right; simp [hh]
  · rcases hf : req.fpcc.fps.get? req.fragmentIndex with _ | fp
    · right
      by_cases hsha : cfg.sha req.fragment = h <;> simp [hh, hf, hsha]
    · by_cases hsha : cfg.sha req.fragment = h
      · by_cases heval : Fingerprint.Eval req.fpcc.seed req.fragment = fp
        · left; simp [hh, hf, hsha, heval]
        · right; simp [hh, hf, hsha, heval]
      · right; simp [hh, hf, hsha]

/-- Membership in the fragment store after `persistFragment`: the entry
was already there, or it is the just-written one. -/
theorem persistFragment_mem (frags : List ((String × Nat) × List Nat))
    (obj : String) (idx : Nat) (data : List Nat) (key : String × Nat)
    (f : List Nat) (h : (key, f) ∈ persistFragment frags obj idx data) :
    (key, f) ∈ frags ∨ (key = (obj, idx) ∧ f = data) := by
  unfold persistFragment at h
  rcases hf : frags.find? (fun e => e.1 == (obj, idx)) with _ | e
  · rw [hf] at h
    rcases List.mem_cons.mp h with h1 | h1
    · right
      have h2 := congrArg Prod.fst h1
      have h3 := congrArg Prod.snd h1
      exact ⟨h2, h3⟩
    · exact Or.inl h1
  · rw [hf] at h
    exact Or.inl h

/-- Fragment-store dichotomy for the whole Disperse step. -/
theorem disperseStep_fragment_cases (cfg : Config) (s : ServerState)
    (req : DisperseRequest) (now : Nat) :
    ((disperseStep cfg s req now).1.fragments = s.fragments ∧
      (disperseStep cfg s req now).2 ≠ DisperseReply.accepted) ∨
    ((disperseStep cfg s req now).1.fragments =
        persistFragment s.fragments req.objectId req.fragmentIndex
          req.fragment ∧
      FPCC.verify cfg.sha req.fpcc req.fragmentIndex req.fragment = true) := by
  have hfr := disperseLockPhase_fragments cfg s req now
  unfold disperseStep
  dsimp only
  rcases disperseLockPhase_snd_cases cfg s req now with ha | ha | ha <;>
    rw [ha]
  · rcases disperseChecks_fragments cfg (disperseLockPhase cfg s req now).1
        req with ⟨_, hver, hfrag⟩ | ⟨hne, hfrag, hver⟩
    · right
      exact ⟨by rw [hfrag, hfr], hver⟩
    · left
      refine ⟨by rw [hfrag, hfr], hne⟩
  · left
    exact ⟨hfr, by simp⟩
  · left
    exact ⟨hfr, by simp⟩

/-- C3: every fragment the Disperse handler adds to the fragment store
satisfies `FPCC.verify(index, fragment)` against the request's FPCC;
and when verification fails the handler rejects (never `accepted`, hence
`Ok=false`) and writes nothing to the fragment store. -/
theorem C3_persisted_fragments_verified (cfg : Config) (s : ServerState)
    (req : DisperseRequest) (now : Nat) :
    (∀ key frag,
      (key, frag) ∈ (disperseStep cfg s req now).1.fragments →
        (key, frag) ∈ s.fragments ∨
        (key = (req.objectId, req.fragmentIndex) ∧ frag = req.fragment ∧
          FPCC.verify cfg.sha req.fpcc req.fragmentIndex req.fragment =
            true)) ∧
    (FPCC.verify cfg.sha req.fpcc req.fragmentIndex req.fragment = false →
      (disperseStep cfg s req now).1.fragments = s.fragments ∧
      (disperseStep cfg s req now).2 ≠ DisperseReply.accepted) := by
  constructor
  · intro key frag hmem
    rcases disperseStep_fragment_cases cfg s req now with ⟨hfrag, _⟩ |
        ⟨hfrag, hver⟩
    · rw [hfrag] at hmem
      exact Or.inl hmem
    · rw [hfrag] at hmem
      rcases persistFragment_mem s.fragments req.objectId req.fragmentIndex
          req.fragment key frag hmem with h1 | ⟨hk, hfr⟩
      · exact Or.inl h1
      · exact Or.inr ⟨hk, hfr, hver⟩
  · intro hver
    rcases disperseStep_fragment_cases cfg s req now with ⟨hfrag, hne⟩ |
        ⟨_, hver2⟩
    · exact ⟨hfrag, hne⟩
    · rw [hver] at hver2
      cases hver2

/-- C3 witness: at `cfgW`, `initState`, `reqW` the handler persists the
fragment `[1]` for `("o", 0)`, and the persistence lemma applies to it. -/
theorem C3_witness :
    (("o", 0), [1]) ∈ initState.fragments ∨
    (("o", 0) = (reqW.objectId, reqW.fragmentIndex) ∧
      [1] = reqW.fragment ∧
      FPCC.verify cfgW.sha reqW.fpcc reqW.fragmentIndex reqW.fragment =
        true) :=
  (C3_persisted_fragments_verified cfgW initState reqW 0).1 ("o", 0) [1]
    (by decide)

/-- Reading a peer-set map through a cons cell. -/
theorem getSeen_cons (o1 : String) (ps : List String)
    (tl : List (String × List String)) (o : String) :
    getSeen ((o1, ps) :: tl) o = if o1 = o then ps else getSeen tl o := by
  unfold getSeen
  by_cases h : o1 = o <;> simp [List.find?_cons, h]

/-- `addSeen` on a matching head entry. -/
theorem addSeen_cons_eq (o1 : String) (ps : List String)
    (tl : List (String × List String)) (p : String) :
    addSeen ((o1, ps) :: tl) o1 p = (o1, insertStr ps p) :: tl := by
  unfold addSeen
  rw [if_pos rfl]

/-- `addSeen` on a non-matching head entry. -/
theorem addSeen_cons_ne (o1 : String) (ps : List String)
    (tl : List (String × List String)) (obj p : String) (h : o1 ≠ obj) :
    addSeen ((o1, ps) :: tl) obj p = (o1, ps) :: addSeen tl obj p := by
  simp only [addSeen]
  rw [if_neg h]

/-- Reading a per-object peer set after recording a sender: the updated
object gains the sender (deduplicated), every other object is untouched. -/
theorem getSeen_addSeen (obj p : String) :
    ∀ (m : List (String × List String)) (o : String),
      getSeen (addSeen m obj p) o =
        if o = obj then insertStr (getSeen m obj) p else getSeen m o := by
  intro m
  induction m with
  | nil =>
    intro o
    unfold addSeen
    rw [getSeen_cons]
    by_cases h : o = obj
    · subst h
      simp [getSeen, insertStr]
    · simp [getSeen, h, Ne.symm h]
  | cons hd tl ih =>
    intro o
    obtain ⟨o1, ps⟩ := hd
    by_cases h1 : o1 = obj
    · subst h1
      rw [addSeen_cons_eq, getSeen_cons]
      by_cases h2 : o = o1
      · subst h2
        simp [getSeen_cons]
      · simp [getSeen_cons, h2, Ne.symm h2]
    · rw [addSeen_cons_ne o1 ps tl obj p h1, getSeen_cons]
      by_cases h2 : o1 = o
      · subst h2
        simp [getSeen_cons, h1]
      · simp [getSeen_cons, h1, h2, ih o]

/-- Recording a sender never shrinks a peer set. -/
theorem length_le_insertStr (l : List String) (x : String) :
    l.length ≤ (insertStr l x).length := by
  unfold insertStr
  split <;> simp

/-- Deduplicated insertion preserves distinctness. -/
theorem insertStr_nodup (l : List String) (x : String) (h : l.Nodup) :
    (insertStr l x).Nodup := by
  unfold insertStr
  split
  · exact h
  · next hmem =>
    refine List.nodup_cons.mpr ⟨?_, h⟩
    simpa using hmem

/-- Membership after deduplicated insertion. -/
theorem contains_insertStr (l : List String) (x y : String)
    (h : (insertStr l x).contains y = true) :
    y = x ∨ l.contains y = true := by
  unfold insertStr at h
  split at h
  · exact Or.inr h
  · rcases List.mem_cons.mp (by simpa using h) with h1 | h1
    · exact Or.inl h1
    · right
      simpa using h1

/-- The lock phase of Disperse touches neither the Ready-sender sets nor
the commit flags. -/
theorem disperseLockPhase_ready_committed (cfg : Config) (s : ServerState)
    (req : DisperseRequest) (now : Nat) :
    (disperseLockPhase cfg s req now).1.readySeen = s.readySeen ∧
    (disperseLockPhase cfg s req now).1.committed = s.committed := by
  unfold disperseLockPhase
  split
  · rcases hl : lookupA s.fpccs req.objectId with _ | pinned
    · simp [hl]
    · rcases he : eqFPCC pinned req.fpcc with _ | b
      · simp [hl, he]
      · cases b <;> simp [hl, he]
  · simp

/-- The check phase of Disperse touches neither the Ready-sender sets nor
the commit flags. -/
theorem disperseChecks_ready_committed (cfg : Config) (s1 : ServerState)
    (req : DisperseRequest) :
    (disperseChecks cfg s1 req).1.readySeen = s1.readySeen ∧
    (disperseChecks cfg s1 req).1.committed = s1.committed := by
  unfold disperseChecks
  rcases hh : req.fpcc.hashes.get? req.fragmentIndex with _ | h
  · simp [hh]
  · rcases hf : req.fpcc.fps.get? req.fragmentIndex with _ | fp
    · by_cases hsha : cfg.sha req.fragment = h <;> simp [hh, hf, hsha]
    · by_cases hsha : cfg.sha req.fragment = h
      · by_cases heval : Fingerprint.Eval req.fpcc.seed req.fragment = fp <;>
          simp [hh, hf, hsha, heval]
      · simp [hh, hf, hsha]

/-- The Disperse handler touches neither the Ready-sender sets nor the
commit flags. -/
theorem disperseStep_ready_committed (cfg : Config) (s : ServerState)
    (req : DisperseRequest) (now : Nat) :
    (disperseStep cfg s req now).1.readySeen = s.readySeen ∧
    (disperseStep cfg s req now).1.committed = s.committed := by
  obtain ⟨hl1, hl2⟩ := disperseLockPhase_ready_committed cfg s req now
  obtain ⟨hc1, hc2⟩ :=
    disperseChecks_ready_committed cfg (disperseLockPhase cfg s req now).1
      req
  unfold disperseStep
  dsimp only
  rcases disperseLockPhase_snd_cases cfg s req now with ha | ha | ha <;>
    rw [ha]
  · exact ⟨by rw [hc1, hl1], by rw [hc2, hl2]⟩
  · exact ⟨hl1, hl2⟩
  · exact ⟨hl1, hl2⟩

/-- The Echo handler touches neither the Ready-sender sets nor the commit
flags. -/
theorem echoStep_ready_committed (cfg : Config) (s : ServerState)
    (peerAddr obj : String) (fpcc : FPCC) :
    (echoStep cfg s peerAddr obj fpcc).readySeen = s.readySeen ∧
    (echoStep cfg s peerAddr obj fpcc).committed = s.committed := by
  unfold echoStep
  dsimp only
  split <;> exact ⟨rfl, rfl⟩

/-- The Ready handler records the sender... -/
theorem readyStep_readySeen (cfg : Config) (s : ServerState)
    (peerAddr obj : String) :
    (readyStep cfg s peerAddr obj).readySeen =
      addSeen s.readySeen obj peerAddr := by
  unfold readyStep
  dsimp only
  split <;> rfl

/-- ... and closes the commit channel only at the `2f + 1` threshold. -/
theorem readyStep_committed (cfg : Config) (s : ServerState)
    (peerAddr obj : String) :
    (readyStep cfg s peerAddr obj).committed = s.committed ∨
    ((readyStep cfg s peerAddr obj).committed = insertStr s.committed obj ∧
      2 * cfg.f + 1 ≤
        (getSeen (addSeen s.readySeen obj peerAddr) obj).length) := by
  unfold readyStep
  dsimp only
  split
  · next hcond => exact Or.inr ⟨rfl, hcond.1⟩
  · exact Or.inl rfl

/-- The commit invariant: every committed object has at least `2f + 1`
recorded Ready senders, and every recorded sender set is duplicate-free
(senders are counted at most once). -/
def CommitInv (cfg : Config) (s : ServerState) : Prop :=
  (∀ obj, s.committed.contains obj = true →
    2 * cfg.f + 1 ≤ (getSeen s.readySeen obj).length) ∧
  ∀ obj, (getSeen s.readySeen obj).Nodup

/-- Each RPC handler preserves the commit invariant. -/
theorem commitInv_applyEvent (cfg : Config) (s : ServerState) (ev : Event)
    (h : CommitInv cfg s) : CommitInv cfg (applyEvent cfg s ev) := by
  obtain ⟨hcom, hnd⟩ := h
  cases ev with
  | disperse req now =>
    obtain ⟨hr, hc⟩ := disperseStep_ready_committed cfg s req now
    refine ⟨fun obj hobj => ?_, fun obj => ?_⟩
    · rw [applyEvent] at hobj ⊢
      rw [hr]
      exact hcom obj (by rwa [hc] at hobj)
    · rw [applyEvent, hr]
      exact hnd obj
  | echo peerAddr obj fpcc =>
    obtain ⟨hr, hc⟩ := echoStep_ready_committed cfg s peerAddr obj fpcc
    refine ⟨fun o ho => ?_, fun o => ?_⟩
    · rw [applyEvent] at ho ⊢
      rw [hr]
      exact hcom o (by rwa [hc] at ho)
    · rw [applyEvent, hr]
      exact hnd o
  | ready peerAddr obj fpcc =>
    refine ⟨fun o ho => ?_, fun o => ?_⟩
    · rw [applyEvent] at ho ⊢
      rw [readyStep_readySeen, getSeen_addSeen]
      rcases readyStep_committed cfg s peerAddr obj with hc | ⟨hc, hbound⟩
      · rw [hc] at ho
        have hold := hcom o ho
        split
        · next heq =>
          subst heq
          exact le_trans hold (length_le_insertStr _ _)
        · exact hold
      · rw [hc] at ho
        rcases contains_insertStr s.committed obj o ho with h1 | h1
        · subst h1
          rw [if_pos rfl]
          rw [getSeen_addSeen] at hbound
          simpa using hbound
        · have hold := hcom o h1
          split
          · next heq =>
            subst heq
            exact le_trans hold (length_le_insertStr _ _)
          · exact hold
    · rw [applyEvent, readyStep_readySeen, getSeen_addSeen]
      split
      · exact insertStr_nodup _ _ (hnd obj)
      · exact hnd o

/-- The commit invariant holds along every run. -/
theorem commitInv_run (cfg : Config) (evs : List Event) (s : ServerState)
    (h : CommitInv cfg s) : CommitInv cfg (runEvents cfg s evs) := by
  induction evs generalizing s with
  | nil => exact h
  | cons ev rest ih => exact ih _ (commitInv_applyEvent cfg s ev h)

/-- A fresh node satisfies the commit invariant. -/
theorem commitInv_init (cfg : Config) : CommitInv cfg initState := by
  constructor
  · intro obj h
    simp [initState, newServer, List.contains] at h
  · intro obj
    simp [initState, newServer, rebuildSeen, getSeen]

/-- C4: in every execution (sequence of Disperse/Echo/Ready RPCs from a
fresh node), the Disperse handler's final `select` succeeds — replying
`Ok = true` instead of the timeout error — only when the commit signal for
the object has been closed, and any state in which it is closed has at
least `2f + 1` distinct (duplicate-free) Ready senders recorded for that
object. -/
theorem C4_commit_requires_ready_quorum (cfg : Config) (evs : List Event)
    (obj : String)
    (hok : disperseSelectOk (runEvents cfg initState evs) obj = true) :
    2 * cfg.f + 1 ≤
      (getSeen (runEvents cfg initState evs).readySeen obj).length ∧
    (getSeen (runEvents cfg initState evs).readySeen obj).Nodup := by
  have h := commitInv_run cfg evs initState (commitInv_init cfg)
  exact ⟨h.1 obj hok, h.2 obj⟩

/-- Concrete run for the C4 witness: one Disperse for `"o"` (which
creates the commit channel) followed by five Ready RPCs from distinct
peers; with `(m, n) = (3, 5)` the threshold `2f + 1 = 5` is reached. -/
def evsW : List Event :=
  [Event.disperse reqW 0,
   Event.ready "p1" "o" reqW.fpcc,
   Event.ready "p2" "o" reqW.fpcc,
   Event.ready "p3" "o" reqW.fpcc,
   Event.ready "p4" "o" reqW.fpcc,
   Event.ready "p5" "o" reqW.fpcc]

/-- C4 witness: on the concrete run `evsW` the select succeeds and the
quorum bound follows by the theorem. -/
theorem C4_witness :
    2 * cfgW.f + 1 ≤
      (getSeen (runEvents cfgW initState evsW).readySeen "o").length ∧
    (getSeen (runEvents cfgW initState evsW).readySeen "o").Nodup :=
  C4_commit_requires_ready_quorum cfgW evsW "o" (by decide)

/-- Association-list lookup through a cons cell. -/
theorem lookupA_cons {α : Type} (k : String) (v : α)
    (rest : List (String × α)) (obj : String) :
    lookupA ((k, v) :: rest) obj =
      if k = obj then some v else lookupA rest obj := by
  unfold lookupA
  by_cases h : k = obj <;> simp [List.find?_cons, h]

/-- Under in-range indices, the `eqFPCC` loop computes the pointwise
comparison of hashes and fingerprints. -/
theorem eqFPCCloop_eq_all (a b : FPCC) :
    ∀ (idxs : List Nat),
      (∀ i ∈ idxs, i < a.hashes.length) →
      (∀ i ∈ idxs, i < b.hashes.length) →
      (∀ i ∈ idxs, i < a.fps.length) →
      (∀ i ∈ idxs, i < b.fps.length) →
      eqFPCCloop a b idxs =
        some (idxs.all fun i =>
          (a.hashes.get? i == b.hashes.get? i) &&
          (a.fps.get? i == b.fps.get? i)) := by
  intro idxs
  induction idxs with
  | nil => intro _ _ _ _; rfl
  | cons i rest ih =>
    intro h1 h2 h3 h4
    have hi1 := h1 i (List.mem_cons_self _ _)
    have hi2 := h2 i (List.mem_cons_self _ _)
    have hi3 := h3 i (List.mem_cons_self _ _)
    have hi4 := h4 i (List.mem_cons_self _ _)
    have ihrest := ih (fun j hj => h1 j (List.mem_cons_of_mem _ hj))
      (fun j hj => h2 j (List.mem_cons_of_mem _ hj))
      (fun j hj => h3 j (List.mem_cons_of_mem _ hj))
      (fun j hj => h4 j (List.mem_cons_of_mem _ hj))
    have hg1 : a.hashes.get? i = some (a.hashes[i]) := by
      rw [List.get?_eq_getElem?, List.getElem?_eq_getElem hi1]
    have hg2 : b.hashes.get? i = some (b.hashes[i]) := by
      rw [List.get?_eq_getElem?, List.getElem?_eq_getElem hi2]
    have hg3 : a.fps.get? i = some (a.fps[i]) := by
      rw [List.get?_eq_getElem?, List.getElem?_eq_getElem hi3]
    have hg4 : b.fps.get? i = some (b.fps[i]) := by
      rw [List.get?_eq_getElem?, List.getElem?_eq_getElem hi4]
    simp only [eqFPCCloop, hg1, hg2, hg3, hg4, List.all_cons,
      Option.some_beq_some]
    by_cases hh : a.hashes[i] = b.hashes[i]
    · by_cases hf : a.fps[i] = b.fps[i]
      · rw [if_neg (by simp [hh, hf]), ihrest]
        simp [hh, hf]
      · rw [if_pos (by simp [hf])]
        simp [hf]
    · rw [if_pos (by simp [hh])]
      simp [hh]

/-- Completeness of `eqFPCC` on well-formed FPCCs (equally many hashes
and fingerprints): structurally different FPCCs compare as `some false`,
with no out-of-range panic. -/
theorem eqFPCC_some_false_of_ne (a b : FPCC)
    (hwa : a.hashes.length = a.fps.length)
    (hwb : b.hashes.length = b.fps.length)
    (hne : a ≠ b) :
    eqFPCC a b = some false := by
  unfold eqFPCC
  by_cases hguard : a.seed ≠ b.seed ∨ a.hashes.length ≠ b.hashes.length ∨
      a.fps.length ≠ b.fps.length
  · rw [if_pos hguard]
  · rw [if_neg hguard]
    push_neg at hguard
    obtain ⟨hs, hH, hF⟩ := hguard
    rw [eqFPCCloop_eq_all a b (List.range a.hashes.length)
      (fun i hi => List.mem_range.mp hi)
      (fun i hi => hH ▸ List.mem_range.mp hi)
      (fun i hi => hwa ▸ List.mem_range.mp hi)
      (fun i hi => (hwa.trans hF) ▸ List.mem_range.mp hi)]
    congr 1
    by_contra hx
    have htrue : (List.range a.hashes.length).all
        (fun i => (a.hashes.get? i == b.hashes.get? i) &&
          (a.fps.get? i == b.fps.get? i)) = true := by
      cases hall : (List.range a.hashes.length).all
          (fun i => (a.hashes.get? i == b.hashes.get? i) &&
            (a.fps.get? i == b.fps.get? i))
      · exact absurd hall hx
      · rfl
    have hpoint := List.all_eq_true.mp htrue
    have hhashes : a.hashes = b.hashes := by
      apply List.ext_get?
      intro i
      by_cases hi : i < a.hashes.length
      · have hcon : a.hashes[i]? = b.hashes[i]? ∧ a.fps[i]? = b.fps[i]? := by
          simpa using hpoint i (List.mem_range.mpr hi)
        rw [List.get?_eq_getElem?, List.get?_eq_getElem?]
        exact hcon.1
      · rw [List.get?_eq_none.mpr (by omega),
          List.get?_eq_none.mpr (by omega)]
    have hfps : a.fps = b.fps := by
      apply List.ext_get?
      intro i
      by_cases hi : i < a.hashes.length
      · have hcon : a.hashes[i]? = b.hashes[i]? ∧ a.fps[i]? = b.fps[i]? := by
          simpa using hpoint i (List.mem_range.mpr hi)
        rw [List.get?_eq_getElem?, List.get?_eq_getElem?]
        exact hcon.2
      · rw [List.get?_eq_none.mpr (by omega),
          List.get?_eq_none.mpr (by omega)]
    apply hne
    cases a
    cases b
    simp only at hs hhashes hfps
    simp [hs, hhashes, hfps]

/-- The lock phase either finds the per-object state (and leaves `fpccs`
and `commitChans` untouched) or creates it (pinning the request's FPCC). -/
theorem disperseLockPhase_fpccs_commitChans (cfg : Config)
    (s : ServerState) (req : DisperseRequest) (now : Nat) :
    (s.commitChans.contains req.objectId = true ∧
      (disperseLockPhase cfg s req now).1.fpccs = s.fpccs ∧
      (disperseLockPhase cfg s req now).1.commitChans = s.commitChans) ∨
    (s.commitChans.contains req.objectId = false ∧
      (disperseLockPhase cfg s req now).1.fpccs =
        (req.objectId, req.fpcc) :: s.fpccs ∧
      (disperseLockPhase cfg s req now).1.commitChans =
        req.objectId :: s.commitChans) := by
  unfold disperseLockPhase
  cases hc : s.commitChans.contains req.objectId
  · right
    simp [hc]
  · left
    refine ⟨rfl, ?_⟩
    rw [if_pos rfl]
    rcases hl : lookupA s.fpccs req.objectId with _ | pinned
    · simp [hl]
    · rcases he : eqFPCC pinned req.fpcc with _ | b
      · simp [hl, he]
      · cases b <;> simp [hl, he]

/-- The check phase touches neither `fpccs` nor `commitChans`. -/
theorem disperseChecks_fpccs_commitChans (cfg : Config) (s1 : ServerState)
    (req : DisperseRequest) :
    (disperseChecks cfg s1 req).1.fpccs = s1.fpccs ∧
    (disperseChecks cfg s1 req).1.commitChans = s1.commitChans := by
  unfold disperseChecks
  rcases hh : req.fpcc.hashes.get? req.fragmentIndex with _ | h
  · simp [hh]
  · rcases hf : req.fpcc.fps.get? req.fragmentIndex with _ | fp
    · by_cases hsha : cfg.sha req.fragment = h <;> simp [hh, hf, hsha]
    · by_cases hsha : cfg.sha req.fragment = h
      · by_cases heval : Fingerprint.Eval req.fpcc.seed req.fragment = fp <;>
          simp [hh, hf, hsha, heval]
      · simp [hh, hf, hsha]

/-- The whole Disperse step either leaves `fpccs`/`commitChans` untouched
(object already known) or creates the entry, pinning the request's FPCC. -/
theorem disperseStep_fpccs_commitChans (cfg : Config) (s : ServerState)
    (req : DisperseRequest) (now : Nat) :
    (s.commitChans.contains req.objectId = true ∧
      (disperseStep cfg s req now).1.fpccs = s.fpccs ∧
      (disperseStep cfg s req now).1.commitChans = s.commitChans) ∨
    (s.commitChans.contains req.objectId = false ∧
      (disperseStep cfg s req now).1.fpccs =
        (req.objectId, req.fpcc) :: s.fpccs ∧
      (disperseStep cfg s req now).1.commitChans =
        req.objectId :: s.commitChans) := by
  obtain ⟨hcf, hcc⟩ :=
    disperseChecks_fpccs_commitChans cfg (disperseLockPhase cfg s req now).1
      req
  have hstep : (disperseStep cfg s req now).1.fpccs =
      (disperseLockPhase cfg s req now).1.fpccs ∧
      (disperseStep cfg s req now).1.commitChans =
      (disperseLockPhase cfg s req now).1.commitChans := by
    unfold disperseStep
    dsimp only
    rcases disperseLockPhase_snd_cases cfg s req now with ha | ha | ha <;>
      rw [ha]
    · exact ⟨hcf, hcc⟩
    · exact ⟨rfl, rfl⟩
    · exact ⟨rfl, rfl⟩
  rcases disperseLockPhase_fpccs_commitChans cfg s req now with
      ⟨hc, hf, hch⟩ | ⟨hc, hf, hch⟩
  · left
    exact ⟨hc, hstep.1.trans hf, hstep.2.trans hch⟩
  · right
    exact ⟨hc, hstep.1.trans hf, hstep.2.trans hch⟩

/-- Domain synchrony: an object has a commit channel exactly when it has
a pinned FPCC (both are created together by Disperse). -/
def DomInv (s : ServerState) : Prop :=
  ∀ obj, s.commitChans.contains obj = true ↔ (lookupA s.fpccs obj).isSome

/-- Disperse preserves domain synchrony. -/
theorem domInv_disperseStep (cfg : Config) (s : ServerState)
    (req : DisperseRequest) (now : Nat) (h : DomInv s) :
    DomInv (disperseStep cfg s req now).1 := by
  intro obj
  rcases disperseStep_fpccs_commitChans cfg s req now with
      ⟨_, hf, hch⟩ | ⟨_, hf, hch⟩
  · rw [hf, hch]
    exact h obj
  · rw [hf, hch, lookupA_cons, List.contains_cons]
    by_cases hobj : req.objectId = obj
    · simp [hobj]
    · simp only [if_neg hobj]
      rw [show (obj == req.objectId) = false from
        beq_eq_false_iff_ne.mpr (fun hh => hobj hh.symm)]
      simpa using h obj

/-- Effect of one Disperse on the pinned-FPCC map: the request pins its
FPCC when the object is new and changes nothing otherwise. -/
theorem disperseStep_lookup_fpccs (cfg : Config) (s : ServerState)
    (req : DisperseRequest) (now : Nat) (obj : String) (hdom : DomInv s) :
    lookupA (disperseStep cfg s req now).1.fpccs obj =
      if lookupA s.fpccs obj = none ∧ req.objectId = obj
      then some req.fpcc else lookupA s.fpccs obj := by
  rcases disperseStep_fpccs_commitChans cfg s req now with
      ⟨hc, hf, _⟩ | ⟨hc, hf, _⟩
  · rw [hf]
    by_cases hobj : req.objectId = obj
    · subst hobj
      have hsome : (lookupA s.fpccs req.objectId).isSome :=
        (hdom req.objectId).mp hc
      rw [if_neg (fun hand => by
        rw [hand.1] at hsome
        cases hsome)]
    · rw [if_neg (fun hand => hobj hand.2)]
  · rw [hf, lookupA_cons]
    by_cases hobj : req.objectId = obj
    · subst hobj
      have hnone : lookupA s.fpccs req.objectId = none := by
        cases hl : lookupA s.fpccs req.objectId
        · rfl
        · have : s.commitChans.contains req.objectId = true :=
            (hdom req.objectId).mpr (by rw [hl]; rfl)
          rw [this] at hc
          cases hc
      rw [if_pos rfl, if_pos ⟨hnone, rfl⟩]
    · rw [if_neg hobj, if_neg (fun hand => hobj hand.2)]

/-- A run of Disperse requests only (the scope of the pinning claim). -/
def runDisperses (cfg : Config) (s : ServerState)
    (reqs : List DisperseRequest) : ServerState :=
  reqs.foldl (fun t r => (disperseStep cfg t r 0).1) s

/-- The FPCC of the first request in the list for the given object. -/
def firstFpcc (reqs : List DisperseRequest) (obj : String) : Option FPCC :=
  (reqs.find? (fun r => r.objectId == obj)).map (fun r => r.fpcc)

/-- Along a Disperse-only run, the pinned FPCC is the already-pinned one,
or else that of the first request for the object. -/
theorem runDisperses_lookup (cfg : Config) :
    ∀ (reqs : List DisperseRequest) (s : ServerState), DomInv s →
      ∀ obj, lookupA (runDisperses cfg s reqs).fpccs obj =
        match lookupA s.fpccs obj with
        | some X => some X
        | none => firstFpcc reqs obj := by
  intro reqs
  induction reqs with
  | nil =>
    intro s _ obj
    cases hl : lookupA s.fpccs obj <;>
      simp [runDisperses, firstFpcc, hl]
  | cons r rest ih =>
    intro s h obj
    have hstep : runDisperses cfg s (r :: rest) =
        runDisperses cfg (disperseStep cfg s r 0).1 rest := by
      simp [runDisperses]
    rw [hstep, ih _ (domInv_disperseStep cfg s r 0 h) obj,
      disperseStep_lookup_fpccs cfg s r 0 obj h]
    by_cases hobj : r.objectId = obj
    · subst hobj
      cases hl : lookupA s.fpccs r.objectId with
      | some X =>
        rw [if_neg (fun hand => Option.noConfusion hand.1)]
      | none =>
        rw [if_pos ⟨rfl, rfl⟩]
        simp [firstFpcc, List.find?_cons]
    · rw [if_neg (fun hand => hobj hand.2)]
      cases hl : lookupA s.fpccs obj with
      | some X => rfl
      | none =>
        have hb : (r.objectId == obj) = false :=
          beq_eq_false_iff_ne.mpr hobj
        simp [firstFpcc, List.find?_cons, hb]

/-- A fresh node has no commit channel and no pinned FPCC. -/
theorem domInv_init : DomInv initState := by
  intro obj
  simp [initState, newServer, lookupA, List.contains]

/-- C2 (amended): along every sequence of Disperse requests, the FPCC
held for an object is exactly that of the first Disperse that created the
object's state; and — for well-formed FPCCs, with equally many hashes and
fingerprints on both sides — a later Disperse carrying a structurally
different FPCC returns the FPCC-mismatch rejection and leaves the entire
server state (pin, sender sets, fragments, buckets) unchanged. -/
theorem C2_fpcc_pinning (cfg : Config) :
    (∀ (reqs : List DisperseRequest) (obj : String),
      lookupA (runDisperses cfg initState reqs).fpccs obj =
        firstFpcc reqs obj) ∧
    (∀ (s : ServerState) (req : DisperseRequest) (now : Nat)
      (pinned : FPCC),
      s.commitChans.contains req.objectId = true →
      lookupA s.fpccs req.objectId = some pinned →
      pinned.hashes.length = pinned.fps.length →
      req.fpcc.hashes.length = req.fpcc.fps.length →
      pinned ≠ req.fpcc →
      disperseStep cfg s req now = (s, DisperseReply.fpccMismatch)) := by
  constructor
  · intro reqs obj
    have h := runDisperses_lookup cfg reqs initState domInv_init obj
    have hinit : lookupA initState.fpccs obj = none := rfl
    rw [h, hinit]
  · intro s req now pinned hchan hpin hwa hwb hne
    have hlock : disperseLockPhase cfg s req now =
        (s, DisperseReply.fpccMismatch) := by
      unfold disperseLockPhase
      rw [if_pos hchan, hpin]
      dsimp only
      rw [eqFPCC_some_false_of_ne pinned req.fpcc hwa hwb hne]
    unfold disperseStep
    rw [hlock]

/-- Ill-formed pinned FPCC (one hash, two fingerprints): the `eqFPCC`
loop, which ranges over hash indices only, never reads the second
fingerprint. -/
def pinX : FPCC := ⟨5, [[7]], [1, 2]⟩

/-- Disperse request whose FPCC has the same shape but a different second
fingerprint — structurally different from `pinX`. -/
def reqY : DisperseRequest := ⟨"o", 0, [1], ⟨5, [[7]], [1, 3]⟩⟩

/-- A node state with `pinX` pinned for object `"o"`. -/
def c2state : ServerState :=
  { fpccs := [("o", pinX)],
    echoSeen := [],
    readySeen := [],
    readySent := [],
    commitChans := ["o"],
    committed := [],
    fragments := [],
    db := ⟨[], [], [], []⟩,
    broadcasts := [] }

/-- C2 counterexample: the incoming FPCC is not structurally equal to the
pinned one, yet the handler does not return the FPCC-mismatch rejection —
it accepts and even writes a fragment, so the rejected-call-leaves-state-
unchanged guarantee fails as stated for ill-formed FPCCs. -/
theorem C2_counterexample :
    pinX ≠ reqY.fpcc ∧
    lookupA c2state.fpccs "o" = some pinX ∧
    (disperseStep cfgW c2state reqY 0).2 = DisperseReply.accepted ∧
    (disperseStep cfgW c2state reqY 0).1.fragments ≠ c2state.fragments := by
  refine ⟨by decide, by decide, by decide, by decide⟩

/-- Well-formed pinned FPCC for the C2 witness. -/
def pinW : FPCC := ⟨5, [[7]], [1]⟩

/-- A node state with the well-formed `pinW` pinned for `"o"`. -/
def s2W : ServerState :=
  { fpccs := [("o", pinW)],
    echoSeen := [],
    readySeen := [],
    readySent := [],
    commitChans := ["o"],
    committed := [],
    fragments := [],
    db := ⟨[], [], [], []⟩,
    broadcasts := [] }

/-- Disperse request with a well-formed FPCC differing from `pinW` in its
seed. -/
def req2W : DisperseRequest := ⟨"o", 0, [1], ⟨6, [[7]], [1]⟩⟩

/-- C2 witness: the pin-equals-first-Disperse equation on the concrete
one-request run, and the mismatch rejection at the concrete conflicting
request. -/
theorem C2_witness :
    lookupA (runDisperses cfgW initState [reqW]).fpccs "o" =
      firstFpcc [reqW] "o" ∧
    disperseStep cfgW s2W req2W 0 = (s2W, DisperseReply.fpccMismatch) :=
  ⟨(C2_fpcc_pinning cfgW).1 [reqW] "o",
    (C2_fpcc_pinning cfgW).2 s2W req2W 0 pinW (by decide) (by decide)
      (by decide) (by decide) (by decide)⟩

/-- `chunksOf` produces exactly `k` chunks. -/
theorem chunksOf_length (len : Nat) :
    ∀ (k : Nat) (xs : List Nat), (chunksOf len xs k).length = k
  | 0, _ => rfl
  | k + 1, xs => by
    simp [chunksOf, chunksOf_length len k (xs.drop len)]

/-- Concatenating the chunks restores the first `len * k` elements. -/
theorem chunksOf_flatten (len : Nat) :
    ∀ (k : Nat) (xs : List Nat),
      (chunksOf len xs k).flatten = xs.take (len * k)
  | 0, xs => by simp [chunksOf]
  | k + 1, xs => by
    simp only [chunksOf, List.flatten_cons,
      chunksOf_flatten len k (xs.drop len)]
    rw [show len * (k + 1) = len + len * k by ring, List.take_add]

/-- Ceiling division: `m` chunks of size `⌈a/m⌉` cover `a` elements. -/
theorem ceil_mul_ge (a m : Nat) (hm : 1 ≤ m) :
    a ≤ (a + m - 1) / m * m := by
  rcases Nat.eq_zero_or_pos a with ha | ha
  · simp [ha]
  · have h1 : a + m - 1 = (a - 1) + m := by omega
    rw [h1, Nat.add_div_right _ hm, Nat.succ_mul]
    have h2 : m * ((a - 1) / m) + (a - 1) % m = a - 1 :=
      Nat.div_add_mod _ _
    have h4 : (a - 1) / m * m = m * ((a - 1) / m) := Nat.mul_comm _ _
    rw [h4]
    have h3 : (a - 1) % m < m := Nat.mod_lt _ hm
    set t := m * ((a - 1) / m) with ht
    set r := (a - 1) % m with hr
    omega

/-- The first `m` shards of a split, concatenated, are the zero-padded
input. -/
theorem rsSplit_take_flatten (m n : Nat) (input : List Nat)
    (hm : 1 ≤ m) :
    (((rsSplit m n input).take m).flatten =
      input ++ List.replicate
        ((input.length + m - 1) / m * m - input.length) 0) := by
  unfold rsSplit
  dsimp only
  rw [List.take_left'
    (chunksOf_length ((input.length + m - 1) / m) m
      (input ++ List.replicate
        ((input.length + m - 1) / m * m - input.length) 0))]
  rw [chunksOf_flatten]
  apply List.take_of_length_le
  have hceil := ceil_mul_ge input.length m hm
  simp only [List.length_append, List.length_replicate]
  omega

/-- C6: for every blob (the empty one included) and parameters
`1 ≤ m ≤ n`, decoding the encoded shards at `outSize = |blob|` returns
exactly the blob — also when shard entries are replaced by missing
(`none`) values, as long as the modelled library reconstruction contract
(§4.2: `Reconstruct` restores the full shard vector from the surviving
entries) holds for the call, and the library `Encode` writes parity
without touching the `m` data shards. -/
theorem C6_encode_decode_round_trip (m n : Nat) (input : List Nat)
    (rsEnc : List (List Nat) → List (List Nat))
    (rsRec : List (Option (List Nat)) → Except ErasureErr (List (List Nat)))
    (pshards : List (Option (List Nat)))
    (hm : 1 ≤ m) (_hmn : m ≤ n)
    (hlen : pshards.length = n)
    (hpre : ((Encoder.EncodeWith rsEnc ⟨m, n⟩ input).1).take m =
      (rsSplit m n input).take m)
    (hrec : rsRec pshards =
      Except.ok (Encoder.EncodeWith rsEnc ⟨m, n⟩ input).1) :
    Encoder.DecodeWith rsRec ⟨m, n⟩ pshards
      (Encoder.EncodeWith rsEnc ⟨m, n⟩ input).2 = Except.ok input := by
  unfold Encoder.DecodeWith
  rw [if_neg (by simp [hlen]), hrec]
  show rsJoin (Encoder.EncodeWith rsEnc ⟨m, n⟩ input).1 m input.length =
    Except.ok input
  unfold rsJoin
  dsimp only
  rw [hpre, rsSplit_take_flatten m n input hm]
  rw [if_pos (by simp)]
  congr 1
  rw [List.take_left]

/-- C6 witness: `(m, n) = (1, 2)` replication-style instance on the blob
`[7, 8]` with the first shard missing; the modelled contract hypotheses
hold by evaluation and decoding returns the blob exactly. -/
theorem C6_witness :
    Encoder.DecodeWith (fun _ => Except.ok [[7, 8], [7, 8]]) ⟨1, 2⟩
      [none, some [7, 8]]
      (Encoder.EncodeWith
        (fun xs => [xs.headD [], xs.headD []]) ⟨1, 2⟩ [7, 8]).2 =
      Except.ok [7, 8] :=
  C6_encode_decode_round_trip 1 2 [7, 8]
    (fun xs => [xs.headD [], xs.headD []])
    (fun _ => Except.ok [[7, 8], [7, 8]])
    [none, some [7, 8]]
    (by decide) (by decide) (by decide) (by rfl) (by rfl)

/-- C7 witness: `New(3, 5)` yields an encoder, `New(3, 3)` an error. -/
theorem C7_witness :
    (∃ enc, New 3 5 = Except.ok enc) ∧
    (New 3 3 = Except.error ErasureErr.invalidParameters ∨
      New 3 3 = Except.error ErasureErr.newFailed) :=
  ⟨(C7_new_parameter_validation 3 5).1.mpr (by decide),
    (C7_new_parameter_validation 3 3).2⟩

/-- C1 witness: the no-amplification fact evaluated at a concrete Ready
RPC on a fresh node. -/
theorem C1_witness :
    (readyStep cfgW initState "p1" "o").readySent = initState.readySent ∧
    (readyStep cfgW initState "p1" "o").broadcasts =
      initState.broadcasts :=
  C1_ready_handler_never_broadcasts cfgW initState "p1" "o"
